import Mathlib

/-!
Verification of the GIF timeline model, delay rescaler, segmentation planner
and pipeline orchestrator of the assetguy repository.

The Python sources are embedded shallowly: integers stay integers, Python
floats (which here only ever hold exact sums of centisecond delays divided by
100, and user-entered decimal literals) are modelled as rationals, fallible
code returns Option, and the per-segment external pipeline is modelled by an
oracle saying which segment pipelines succeed.
-/

namespace AssetGuy

/-- Python slice `l[a:b]` for nonnegative bounds: elements at indices `a..b-1`. -/
def pySlice (l : List ℤ) (a b : ℕ) : List ℤ := (l.take b).drop a

/-- Python `int()` applied to a (rational-valued) number: truncation toward zero. -/
def pyInt (q : ℚ) : ℤ := if 0 ≤ q then ⌊q⌋ else ⌈q⌉

/-- Python 3 `round()` on a rational: nearest integer, ties go to the even integer. -/
def pyRound (q : ℚ) : ℤ :=
  let f := ⌊q⌋
  let r := q - (f : ℚ)
  if r < 1/2 then f
  else if 1/2 < r then f + 1
  else if f % 2 = 0 then f else f + 1

/-!
## Timeline model — `GifAsset` (src/assetguy/assets/gif.py)
-/

/-- The delay-repair step of `GifAsset.get_info` (gif.py lines 82-88): when the probed
delay count disagrees with the probed frame count, pad with the last known delay
(default 10 when no delays were probed) or truncate extras. -/
def repairDelays (delays : List ℤ) (frameCount : ℕ) : List ℤ :=
  if delays.length ≠ frameCount then
    if delays.length < frameCount then
      let lastDelay := match delays.getLast? with
        | some d => d
        | none => 10
      delays ++ List.replicate (frameCount - delays.length) lastDelay
    else delays.take frameCount
  else delays

/-- `avg_delay` of `GifAsset.get_info` (gif.py line 90): `sum(delays)/len(delays)` when
the list is non-empty, else 0. -/
def avgDelay (delays : List ℤ) : ℚ :=
  if delays = [] then 0 else (delays.sum : ℚ) / (delays.length : ℚ)

/-- Python `round(x, 2)`: banker's rounding at two decimal places. -/
def pyRound2 (q : ℚ) : ℚ := (pyRound (q * 100) : ℚ) / 100

/-- `fps` of `GifAsset.get_info` (gif.py line 91): `round(100/avg_delay, 2)` when the
average delay is positive, else 0. -/
def gifFps (delays : List ℤ) : ℚ :=
  if 0 < avgDelay delays then pyRound2 (100 / avgDelay delays) else 0

/-- `total_duration` of `GifAsset.get_info` (gif.py line 94): `sum(delays)/100.0` in
seconds when the delay list is non-empty, else 0. -/
def gifDuration (delays : List ℤ) : ℚ :=
  if delays = [] then 0 else (delays.sum : ℚ) / 100

/-- The `cumulative_times` accumulation of `GifAsset.time_range_to_frames`
(gif.py lines 139-143): running sums of `delay/100.0`, starting from `c`. -/
def cumTimesAux (c : ℚ) : List ℤ → List ℚ
  | [] => []
  | d :: rest => (c + (d : ℚ) / 100) :: cumTimesAux (c + (d : ℚ) / 100) rest

/-- `cumulative_times` of `GifAsset.time_range_to_frames`: `cumTimes delays [i]` is the
time at which frame `i` ends. -/
def cumTimes (delays : List ℤ) : List ℚ := cumTimesAux 0 delays

/-- Index of the first list element satisfying `p`, if any (the `for ... break`
search pattern of `time_range_to_frames`). -/
def findFirstIdx (p : ℚ → Bool) : List ℚ → Option ℕ
  | [] => none
  | c :: rest => if p c then some 0 else (findFirstIdx p rest).map (· + 1)

/-- The start-frame scan of `GifAsset.time_range_to_frames` (gif.py lines 145-152):
`start_frame` is the first index whose cumulative end time strictly exceeds
`start_time`, defaulting to 0 when the loop never breaks. -/
def startFrameOf (delays : List ℤ) (startTime : ℚ) : ℕ :=
  (findFirstIdx (fun c => decide (startTime < c)) (cumTimes delays)).getD 0

/-- The end-frame scan of `GifAsset.time_range_to_frames` (gif.py lines 154-161): the
loop checks `prev_time > end_time` at index `i`, where `prev_time` is the cumulative
time of frame `i-1` (0 for `i = 0`); on the first hit it sets
`end_frame = max(0, i-1)`, and `len(delays)-1` if the scan never triggers. -/
def endFrameOf (delays : List ℤ) (endTime : ℚ) : ℕ :=
  match findFirstIdx (fun c => decide (endTime < c)) (0 :: (cumTimes delays).dropLast) with
  | some i => i - 1
  | none => delays.length - 1

/-- The start-time clamp of `GifAsset.time_range_to_frames` (gif.py lines 131-132):
negative start times are clamped to 0. -/
def clampStart (startTime : ℚ) : ℚ := if startTime < 0 then 0 else startTime

/-- The end-time clamp of `GifAsset.time_range_to_frames` (gif.py lines 133-134): an
absent end time, or one past the total duration, becomes the total duration. -/
def clampEnd (delays : List ℤ) (endTime : Option ℚ) : ℚ :=
  match endTime with
  | none => gifDuration delays
  | some t => if gifDuration delays < t then gifDuration delays else t

/-- `GifAsset.time_range_to_frames` (gif.py lines 111-166), for a timeline whose info
was produced by `get_info` (so `duration = gifDuration delays` and the delay list is
the repaired one): convert a time range in seconds (`endTime = none` means end of
GIF) to an inclusive frame range. -/
def time_range_to_frames (delays : List ℤ) (startTime : ℚ) (endTime : Option ℚ) :
    Option (ℕ × ℕ) :=
  if delays = [] then none
  else if clampEnd delays endTime ≤ clampStart startTime then none
  else if endFrameOf delays (clampEnd delays endTime) <
      startFrameOf delays (clampStart startTime) then none
  else some (startFrameOf delays (clampStart startTime),
             endFrameOf delays (clampEnd delays endTime))

/-- `GifAsset.frame_range_to_time` (gif.py lines 198-228), for a timeline whose info
was produced by `get_info` (so `frames = delays.length`): start time is the sum of
delays strictly before `startFrame`, end time the sum up to and including
`endFrame`, both in seconds. -/
def frame_range_to_time (delays : List ℤ) (startFrame endFrame : ℤ) :
    Option (ℚ × ℚ) :=
  if delays = [] ∨ delays.length = 0 then none
  else if startFrame < 0 ∨ (delays.length : ℤ) ≤ endFrame ∨ endFrame < startFrame then none
  else some (((delays.take startFrame.toNat).sum : ℚ) / 100,
             ((delays.take (endFrame.toNat + 1)).sum : ℚ) / 100)

/-- `GifAsset.scale_delays_proportionally` (gif.py lines 168-196): rescale delays so
the average rate matches `targetFps` while keeping relative pacing, flooring each
output delay at 1 centisecond. -/
def scale_delays_proportionally (delays : List ℤ) (targetFps : ℚ) : List ℤ :=
  if delays = [] ∨ targetFps ≤ 0 then delays
  else
    let targetDelay := 100 / targetFps
    let originalAvgDelay :=
      if delays = [] then targetDelay else (delays.sum : ℚ) / (delays.length : ℚ)
    if originalAvgDelay = 0 then delays
    else
      let scaleFactor := originalAvgDelay / targetDelay
      delays.map (fun (d : ℤ) => max 1 (pyRound ((d : ℚ) / scaleFactor)))

/-- `GifAsset.frames_to_time_points` (gif.py lines 230-266): map frame indices to the
start times of those frames, silently dropping out-of-range indices. -/
def frames_to_time_points (delays : List ℤ) (frameNumbers : List ℤ) : List ℚ :=
  if delays = [] ∨ delays.length = 0 then []
  else
    let frameStartTimes := 0 :: cumTimes delays.dropLast
    frameNumbers.filterMap (fun f =>
      if 0 ≤ f ∧ f < (frameStartTimes.length : ℤ) then frameStartTimes[f.toNat]?
      else none)

/-!
## FPS retiming directives (src/assetguy/operations/optimize.py)

The optimization command passed to ImageMagick either leaves delays alone or
contains one `-set delay v` directive, which assigns the single value `v` to
every frame of the output.
-/

/-- The delay directive a pipeline command carries: nothing, or one uniform value
(`-set delay v`, applied by ImageMagick to every frame). -/
inductive DelaySetting where
  | noSet : DelaySetting
  | uniform : ℤ → DelaySetting
  deriving DecidableEq

/-- The FPS-adjustment block shared verbatim by `split_gif` (optimize.py lines
343-359) and `trim_gif` (optimize.py lines 487-503): Python `if fps:` treats both
`None` and `0` as absent; in preserve mode the segment's delays are rescaled
proportionally and then collapsed to the truncated mean (`-set delay` sets the same
delay for all frames); in any other mode the uniform delay is `int(100/fps)`. -/
def segmentFpsDelaySetting (delays : List ℤ) (startFrame endFrame : ℕ)
    (fps : Option ℚ) (fpsMode : String) : DelaySetting :=
  match fps with
  | none => .noSet
  | some f =>
    if f = 0 then .noSet
    else if fpsMode = "preserve" then
      let segmentDelays := if delays = [] then [] else pySlice delays startFrame (endFrame + 1)
      if segmentDelays = [] then .uniform (pyInt (100 / f))
      else
        let scaledDelays := scale_delays_proportionally segmentDelays f
        let avgScaledDelay :=
          if scaledDelays = [] then pyInt (100 / f)
          else pyInt ((scaledDelays.sum : ℚ) / (scaledDelays.length : ℚ))
        .uniform avgScaledDelay
    else .uniform (pyInt (100 / f))

/-- The FPS-adjustment block of `optimize_gif` (optimize.py lines 658-673): same as
the segment version but applied to the whole delay list, and without the inner
empty-list guard before the mean. -/
def optimizeFpsDelaySetting (delays : List ℤ) (fps : Option ℚ) (fpsMode : String) :
    DelaySetting :=
  match fps with
  | none => .noSet
  | some f =>
    if f = 0 then .noSet
    else if fpsMode = "preserve" then
      if delays = [] then .uniform (pyInt (100 / f))
      else
        let scaledDelays := scale_delays_proportionally delays f
        .uniform (pyInt ((scaledDelays.sum : ℚ) / (scaledDelays.length : ℚ)))
    else .uniform (pyInt (100 / f))

/-- Per-frame delays of the produced output, given the source frames' delays and the
delay directive of the command (`-set delay v` assigns `v` to every frame). -/
def effectiveDelays (setting : DelaySetting) (segmentDelays : List ℤ) : List ℤ :=
  match setting with
  | .noSet => segmentDelays
  | .uniform v => List.replicate segmentDelays.length v

/-- The delays the specification says preserve mode applies to a segment's output
frames: the per-frame proportionally rescaled delays produced by
`scale_delays_proportionally` for that segment. Stated from the spec's words, for
comparison against the source embedding `segmentFpsDelaySetting`. -/
def specPreserveDelays (segmentDelays : List ℤ) (fps : ℚ) : List ℤ :=
  scale_delays_proportionally segmentDelays fps

/-!
## Segmentation planner — parsers (src/assetguy/operations/optimize.py)

Python strings are modelled as lists of characters (`PyStr`), with structural
implementations of `str.strip()`, single-character `str.split(sep)` and the
prefix/containment tests, so that concrete runs reduce in the kernel. The Python
built-ins `int()` and `float()` are modelled on plain decimal literals (optional
sign, optional fractional part, surrounding whitespace); exponent forms, inf/nan
and underscores are not needed by any claim and are not modelled.
-/

/-- A Python string, as its list of characters. -/
abbrev PyStr := List Char

/-- Python `str.strip()`: drop whitespace from both ends. -/
def pyStrip (s : PyStr) : PyStr :=
  ((s.dropWhile Char.isWhitespace).reverse.dropWhile Char.isWhitespace).reverse

/-- Python `str.split(sep)` for a one-character separator: split at every
occurrence, keeping empty pieces (`"".split(sep) = [""]`). -/
def pySplitAux (sep : Char) : PyStr → PyStr → List PyStr
  | [], acc => [acc.reverse]
  | c :: rest, acc =>
    if c = sep then acc.reverse :: pySplitAux sep rest []
    else pySplitAux sep rest (c :: acc)

/-- Python `str.split(sep)` for a one-character separator. -/
def pySplit (sep : Char) (s : PyStr) : List PyStr := pySplitAux sep s []

/-- Python `sep in s` for a one-character `sep`. -/
def pyContains (s : PyStr) (sep : Char) : Bool := s.contains sep

/-- Python `s.startswith(pre)`. -/
def pyStartsWith (pre s : PyStr) : Bool := List.isPrefixOf pre s

/-- Python `s.split(':', 1)[1]`: everything after the first colon (only used when a
colon is present). -/
def afterFirstColon : PyStr → PyStr
  | [] => []
  | c :: rest => if c = Char.ofNat 58 then rest else afterFirstColon rest

/-- Digits of a natural number literal; `none` when empty or non-digit. -/
def parseNatDigits (cs : List Char) : Option ℕ :=
  if cs.isEmpty || !(cs.all Char.isDigit) then none
  else some (cs.foldl (fun acc c => acc * 10 + (c.toNat - 48)) 0)

/-- Model of Python `int()` on a string: optional sign and decimal digits; `none`
models `ValueError`. -/
def pyParseInt (s : PyStr) : Option ℤ :=
  let t := pyStrip s
  match t with
  | c :: rest =>
    if c = Char.ofNat 45 then (parseNatDigits rest).map (fun n => -(n : ℤ))
    else if c = Char.ofNat 43 then (parseNatDigits rest).map (fun n => (n : ℤ))
    else (parseNatDigits t).map (fun n => (n : ℤ))
  | [] => none

/-- Model of Python `float()` on a string holding a plain decimal literal; `none`
models `ValueError`. -/
def pyParseFloat (s : PyStr) : Option ℚ :=
  let t := pyStrip s
  let sign : ℚ := if pyStartsWith [Char.ofNat 45] t then -1 else 1
  let body :=
    if pyStartsWith [Char.ofNat 45] t || pyStartsWith [Char.ofNat 43] t then t.tail else t
  match pySplit (Char.ofNat 46) body with
  | [intPart] => (parseNatDigits intPart).map (fun n => sign * (n : ℚ))
  | [intPart, fracPart] =>
    if intPart.isEmpty && fracPart.isEmpty then none
    else
      let ip := if intPart.isEmpty then some 0 else parseNatDigits intPart
      let fp := if fracPart.isEmpty then some 0 else parseNatDigits fracPart
      match ip, fp with
      | some a, some b =>
        some (sign * ((a : ℚ) + (b : ℚ) / (10 ^ fracPart.length : ℕ)))
      | _, _ => none
  | _ => none

/-- `parse_frame_range` (optimize.py lines 15-41): parse `"start-end"` as an
inclusive frame range; valid only if `0 <= start`, `end < maxFrames`,
`start <= end`. -/
def parse_frame_range (inputStr : PyStr) (maxFrames : ℤ) : Option (ℤ × ℤ) :=
  if inputStr = [] || !(pyContains inputStr (Char.ofNat 45)) then none
  else
    match pySplit (Char.ofNat 45) inputStr with
    | [p1, p2] =>
      match pyParseInt (pyStrip p1), pyParseInt (pyStrip p2) with
      | some start, some stop =>
        if start < 0 ∨ maxFrames ≤ stop ∨ stop < start then none
        else some (start, stop)
      | _, _ => none
    | _ => none

/-- `parse_time_range` (optimize.py lines 70-96): parse `"start-end"` as a time
range in seconds; valid only if `0 <= start`, `end <= maxDuration`, `start < end`. -/
def parse_time_range (inputStr : PyStr) (maxDuration : ℚ) : Option (ℚ × ℚ) :=
  if inputStr = [] || !(pyContains inputStr (Char.ofNat 45)) then none
  else
    match pySplit (Char.ofNat 45) inputStr with
    | [p1, p2] =>
      match pyParseFloat (pyStrip p1), pyParseFloat (pyStrip p2) with
      | some start, some stop =>
        if start < 0 ∨ maxDuration < stop ∨ stop ≤ start then none
        else some (start, stop)
      | _, _ => none
    | _ => none

/-- `parse_split_frames` (optimize.py lines 44-67): comma-separated frame numbers,
each in `[0, maxFrames)`. -/
def parse_split_frames (inputStr : PyStr) (maxFrames : ℤ) : Option (List ℤ) :=
  if inputStr = [] then none
  else
    let frameStrs := ((pySplit (Char.ofNat 44) inputStr).map pyStrip).filter
      (fun p => p ≠ [])
    match frameStrs.mapM pyParseInt with
    | none => none
    | some frames =>
      if frames.any (fun f => decide (f < 0 ∨ maxFrames ≤ f)) then none
      else some frames

/-- `parse_split_times` (optimize.py lines 99-122): comma-separated time points,
each in `[0, maxDuration)`. -/
def parse_split_times (inputStr : PyStr) (maxDuration : ℚ) : Option (List ℚ) :=
  if inputStr = [] then none
  else
    let timeStrs := ((pySplit (Char.ofNat 44) inputStr).map pyStrip).filter
      (fun p => p ≠ [])
    match timeStrs.mapM pyParseFloat with
    | none => none
    | some times =>
      if times.any (fun t => decide (t < 0 ∨ maxDuration ≤ t)) then none
      else some times

/-- One parsed trim range: a time range in seconds or a frame range. -/
inductive STRange where
  | timeR : ℚ → ℚ → STRange
  | frameR : ℤ → ℤ → STRange
  deriving DecidableEq

/-- Result of the unified split/trim grammar. -/
inductive SplitTrimResult where
  | split : List ℚ → Bool → SplitTrimResult
  | trim : List STRange → Bool → SplitTrimResult
  deriving DecidableEq

/-- `parse_split_trim_input` (optimize.py lines 125-237): unified split/trim input
that auto-detects operation type; `none` models the function's `None` return, used
both for empty/whitespace-only input and for invalid input. `delays` stands for the
`gif_asset` argument's timeline (used only for frame-to-time conversion). -/
def parse_split_trim_input (inputStr0 : PyStr) (maxDuration : ℚ) (maxFrames : ℤ)
    (delays : List ℤ) : Option SplitTrimResult :=
  if inputStr0 = [] ∨ pyStrip inputStr0 = [] then none
  else
    let s1 := pyStrip inputStr0
    let isFrame := pyStartsWith ("f:".toList) s1 || pyStartsWith ("frame:".toList) s1
    let inputStr := if isFrame then pyStrip (afterFirstColon s1) else s1
    if isFrame ∧ inputStr = [] then none
    else if pyContains inputStr (Char.ofNat 45) then
      let parts := ((pySplit (Char.ofNat 44) inputStr).map pyStrip).filter
        (fun p => p ≠ [])
      let ranges := parts.filterMap (fun part =>
        if pyContains part (Char.ofNat 45) then
          if isFrame then
            (parse_frame_range part maxFrames).map (fun r => STRange.frameR r.1 r.2)
          else
            (parse_time_range part maxDuration).map (fun r => STRange.timeR r.1 r.2)
        else none)
      if ranges = [] then none else some (.trim ranges isFrame)
    else
      let listResult : Option SplitTrimResult :=
        if isFrame then
          match parse_split_frames inputStr maxFrames with
          | some points =>
            if points = [] then none
            else
              let timePoints := frames_to_time_points delays points
              if timePoints = [] then none else some (.split timePoints true)
          | none => none
        else
          match parse_split_times inputStr maxDuration with
          | some points => if points = [] then none else some (.split points false)
          | none => none
      match listResult with
      | some r => some r
      | none =>
        if isFrame then
          match pyParseInt (pyStrip inputStr) with
          | some singleFrame =>
            if 0 ≤ singleFrame ∧ singleFrame < maxFrames then
              let timePoints := frames_to_time_points delays [singleFrame]
              if timePoints = [] then none else some (.split timePoints true)
            else none
          | none => none
        else
          match pyParseFloat (pyStrip inputStr) with
          | some singleTime =>
            if 0 ≤ singleTime ∧ singleTime < maxDuration then
              some (.split [singleTime] false)
            else none
          | none => none

/-!
## Pipeline orchestrator — `split_gif` (src/assetguy/operations/optimize.py)

External-process effects are modelled by an oracle `ok : ℕ → Bool` telling whether
the three-command pipeline of segment `i` succeeds (`run` raises on non-zero exit;
the `except` block catches any such failure). Temporary files are tracked
explicitly so the cleanup on both paths is part of the model.
-/

/-- Sorted, deduplicated boundary list of `split_gif` (optimize.py lines 274-287):
sort the requested points, keep those strictly inside `(0, totalDuration)`, add the
two endpoints, then `sorted(list(set(...)))` (modelled as sort-of-dedup, which
produces the same strictly increasing list). -/
def computeValidPoints (splitPoints : List ℚ) (totalDuration : ℚ) : List ℚ :=
  let sortedPts := splitPoints.insertionSort (fun a b => a ≤ b)
  let validPoints :=
    0 :: (sortedPts.filter (fun p => decide (0 < p ∧ p < totalDuration)) ++ [totalDuration])
  (validPoints.dedup).insertionSort (fun a b => a ≤ b)

/-- Output filename of segment `i` (0-based): `f"{input_name}_part{i+1}{input_ext}"`
(optimize.py line 313). -/
def segOutputName (stem ext : String) (i : ℕ) : String :=
  stem ++ "_part" ++ toString (i + 1) ++ ext

/-- Temp file of the coalesce step for segment `i` (`mkstemp` names are unique per
call; indexing by segment models that uniqueness). -/
def coalesceTempName (i : ℕ) : String := "gif_coalesce_" ++ toString i

/-- Temp file of the extract step for segment `i`. -/
def extractTempName (i : ℕ) : String := "gif_split_" ++ toString i

/-- Warnings printed by the `split_gif` loop, each identifying its segment. -/
inductive SplitEvent where
  | warnNoRange : ℕ → SplitEvent
  | warnFailed : ℕ → SplitEvent
  deriving DecidableEq

/-- State threaded through the `split_gif` segment loop: committed output paths,
surfaced warnings, and temp files created but not yet removed. -/
structure SplitState where
  outputs : List String
  events : List SplitEvent
  liveTemps : List String
  deriving DecidableEq

/-- One iteration of the `split_gif` segment loop (optimize.py lines 300-386):
resolve the segment's frame range (warn and continue when it is `none`), create the
two temp files, and either run the pipeline, remove the temps and commit the output
path, or — when the pipeline raises — warn, remove the temps and continue. -/
def splitSegStep (delays : List ℤ) (validPoints : List ℚ) (ok : ℕ → Bool)
    (stem ext : String) (st : SplitState) (i : ℕ) : SplitState :=
  let startTime := validPoints.getD i 0
  let endTime := validPoints.getD (i + 1) 0
  match time_range_to_frames delays startTime (some endTime) with
  | none => { st with events := st.events ++ [.warnNoRange i] }
  | some _ =>
    let live1 := st.liveTemps ++ [coalesceTempName i, extractTempName i]
    if ok i then
      let live2 := (live1.filter (fun t => t ≠ coalesceTempName i)).filter
        (fun t => t ≠ extractTempName i)
      { outputs := st.outputs ++ [segOutputName stem ext i],
        events := st.events,
        liveTemps := live2 }
    else
      let live2 := (live1.filter (fun t => t ≠ coalesceTempName i)).filter
        (fun t => t ≠ extractTempName i)
      { outputs := st.outputs,
        events := st.events ++ [.warnFailed i],
        liveTemps := live2 }

/-- The whole of `split_gif` (optimize.py lines 240-388) for a readable GIF: early
empty results when no points were requested or fewer than two boundaries survive,
otherwise the segment loop over consecutive boundary pairs. Returned value:
committed outputs, warnings, and temp files left behind. -/
def split_gif_run (delays : List ℤ) (splitPoints : List ℚ) (ok : ℕ → Bool)
    (stem ext : String) : SplitState :=
  if splitPoints = [] then ⟨[], [], []⟩
  else
    let validPoints := computeValidPoints splitPoints (gifDuration delays)
    if validPoints.length < 2 then ⟨[], [], []⟩
    else
      (List.range (validPoints.length - 1)).foldl
        (splitSegStep delays validPoints ok stem ext) ⟨[], [], []⟩

/-!
## CLI `optimize` command — gif path (src/assetguy/cli.py lines 107-335)

The trace records the externally visible effects in program order:
`runIdentify` for each ImageMagick `identify` probe (from `inspect_asset` in
interactive mode and from the `get_info` call at cli.py line 144), `runOptimize`
for the ImageMagick optimization pipeline of `optimize_gif`, and the process exits.
`width`/`fps`/`colors` stand for the merged flag/preset/prompt values, and the
interactive split/trim prompt is taken as skipped (empty response).
-/

inductive CliEvent where
  | runIdentify : CliEvent
  | runOptimize : CliEvent
  | exitError : CliEvent
  | exitCancel : CliEvent
  deriving DecidableEq

/-- Python truthiness of an optional integer option (`None` and `0` are falsy). -/
def truthyZ : Option ℤ → Bool
  | none => false
  | some v => decide (v ≠ 0)

/-- Python truthiness of an optional rational option (`None` and `0.0` are falsy). -/
def truthyQ : Option ℚ → Bool
  | none => false
  | some v => decide (v ≠ 0)

structure OptimizeCliConfig where
  magickAvailable : Bool
  nonInteractive : Bool
  outputExists : Bool
  overwrite : Bool
  confirmOverwrite : Bool
  width : Option ℤ
  fps : Option ℚ
  colors : Option ℤ

/-- Event trace of `cli.optimize` on an existing GIF (cli.py lines 107-335): in
interactive mode `inspect_asset` probes first (raising, hence exiting with an
error, when ImageMagick is missing); `get_info` probes next (line 144); the
output-exists check may exit; the at-least-one-parameter validation (lines
303-307, Python `any` truthiness) exits with an error before `optimize_gif` ever
runs; otherwise `optimize_gif` runs the optimization pipeline (or raises when
ImageMagick is missing). -/
def optimizeGifCliTrace (cfg : OptimizeCliConfig) : List CliEvent :=
  if !cfg.nonInteractive && !cfg.magickAvailable then [.exitError]
  else
    let probes := (if cfg.nonInteractive then [] else [CliEvent.runIdentify]) ++
      (if cfg.magickAvailable then [CliEvent.runIdentify] else [])
    if cfg.outputExists && !cfg.overwrite && cfg.nonInteractive then probes ++ [.exitError]
    else if cfg.outputExists && !cfg.overwrite && !cfg.confirmOverwrite then
      probes ++ [.exitCancel]
    else if !(truthyZ cfg.width || truthyQ cfg.fps || truthyZ cfg.colors) then
      probes ++ [.exitError]
    else if cfg.magickAvailable then probes ++ [.runOptimize]
    else probes ++ [.exitError]

/-!
## Helper lemmas about the timeline scans
-/

theorem cumTimesAux_length (c : ℚ) (l : List ℤ) : (cumTimesAux c l).length = l.length := by
  induction l generalizing c with
  | nil => rfl
  | cons d rest ih => simp [cumTimesAux, ih]

theorem cumTimes_length (l : List ℤ) : (cumTimes l).length = l.length :=
  cumTimesAux_length 0 l

theorem cumTimesAux_getD (l : List ℤ) : ∀ (c : ℚ) (i : ℕ), i < l.length →
    (cumTimesAux c l).getD i 0 = c + ((l.take (i + 1)).sum : ℚ) / 100 := by
  induction l with
  | nil => intro c i h; simp at h
  | cons d rest ih =>
    intro c i h
    cases i with
    | zero => simp [cumTimesAux]
    | succ j =>
      simp only [cumTimesAux, List.getD_cons_succ]
      rw [ih _ j (by simpa using Nat.lt_of_succ_lt_succ h)]
      simp only [List.take_succ_cons, List.sum_cons]
      push_cast
      ring

theorem cumTimes_getD (l : List ℤ) (i : ℕ) (h : i < l.length) :
    (cumTimes l).getD i 0 = ((l.take (i + 1)).sum : ℚ) / 100 := by
  rw [cumTimes, cumTimesAux_getD l 0 i h, zero_add]

theorem findFirstIdx_some (p : ℚ → Bool) (l : List ℚ) (i : ℕ)
    (h : findFirstIdx p l = some i) :
    i < l.length ∧ p (l.getD i 0) = true ∧ ∀ j, j < i → p (l.getD j 0) = false := by
  induction l generalizing i with
  | nil => exact Option.noConfusion h
  | cons c rest ih =>
    by_cases hc : p c = true
    · rw [findFirstIdx, if_pos hc] at h
      obtain rfl : (0 : ℕ) = i := Option.some_injective _ h
      exact ⟨by simp, by simpa using hc, fun j hj => absurd hj (Nat.not_lt_zero j)⟩
    · rw [findFirstIdx, if_neg hc] at h
      cases hf : findFirstIdx p rest with
      | none => rw [hf] at h; exact Option.noConfusion h
      | some k =>
        rw [hf] at h
        obtain rfl : k + 1 = i := Option.some_injective _ h
        obtain ⟨hk1, hk2, hk3⟩ := ih k hf
        refine ⟨by simpa using hk1, by simpa using hk2, fun j hj => ?_⟩
        cases j with
        | zero =>
          rw [List.getD_cons_zero]
          exact Bool.eq_false_iff.mpr hc
        | succ m =>
          rw [List.getD_cons_succ]
          exact hk3 m (Nat.lt_of_succ_lt_succ hj)

theorem findFirstIdx_none (p : ℚ → Bool) (l : List ℚ)
    (h : findFirstIdx p l = none) :
    ∀ j, j < l.length → p (l.getD j 0) = false := by
  induction l with
  | nil => intro j hj; exact absurd hj (Nat.not_lt_zero j)
  | cons c rest ih =>
    by_cases hc : p c = true
    · rw [findFirstIdx, if_pos hc] at h; exact Option.noConfusion h
    · rw [findFirstIdx, if_neg hc] at h
      have hrest : findFirstIdx p rest = none := by
        cases hf : findFirstIdx p rest with
        | none => rfl
        | some k => rw [hf] at h; exact Option.noConfusion h
      intro j hj
      cases j with
      | zero =>
        rw [List.getD_cons_zero]
        exact Bool.eq_false_iff.mpr hc
      | succ m =>
        rw [List.getD_cons_succ]
        exact ih hrest m (Nat.lt_of_succ_lt_succ (by simpa using hj))

theorem findFirstIdx_exists (p : ℚ → Bool) (l : List ℚ) (j : ℕ)
    (hj : j < l.length) (hp : p (l.getD j 0) = true) :
    ∃ i, findFirstIdx p l = some i ∧ i ≤ j := by
  cases hf : findFirstIdx p l with
  | none =>
    have hfalse := findFirstIdx_none p l hf j hj
    rw [hp] at hfalse
    exact absurd hfalse (by simp)
  | some i =>
    refine ⟨i, rfl, ?_⟩
    by_contra hij
    obtain ⟨-, -, hmin⟩ := findFirstIdx_some p l i hf
    have hfalse := hmin j (by omega)
    rw [hp] at hfalse
    exact absurd hfalse (by simp)

theorem endFrameOf_lt_length (delays : List ℤ) (e : ℚ) (h : delays ≠ []) :
    endFrameOf delays e < delays.length := by
  have hlen : 0 < delays.length := List.length_pos.mpr h
  unfold endFrameOf
  cases hf : findFirstIdx (fun c => decide (e < c)) (0 :: (cumTimes delays).dropLast) with
  | none =>
    show delays.length - 1 < delays.length
    omega
  | some i =>
    show i - 1 < delays.length
    obtain ⟨hi, -, -⟩ := findFirstIdx_some _ _ _ hf
    simp only [List.length_cons, List.length_dropLast, cumTimes_length] at hi
    omega

/-!
## C10 — every frame range returned by `time_range_to_frames` is a non-empty
range of valid frame indices
-/

/-- C10: whenever `time_range_to_frames` returns a pair `(startFrame, endFrame)`
rather than no result, the pair satisfies
`0 <= startFrame <= endFrame <= frameCount - 1` (the start index is a natural
number, so nonnegativity is by construction): every returned frame range is
non-empty and both endpoints are valid frame indices. -/
theorem c10_returned_frame_range_valid (delays : List ℤ) (startTime : ℚ)
    (endTime : Option ℚ) (sf ef : ℕ)
    (h : time_range_to_frames delays startTime endTime = some (sf, ef)) :
    sf ≤ ef ∧ ef ≤ delays.length - 1 := by
  unfold time_range_to_frames at h
  split_ifs at h with h1 h2 h3
  simp only [Option.some.injEq, Prod.mk.injEq] at h
  obtain ⟨hsf, hef⟩ := h
  have hbound := endFrameOf_lt_length delays (clampEnd delays endTime) h1
  omega

/-- Witness for C10 at a concrete input. -/
theorem c10_witness :
    time_range_to_frames [10, 10] 0 none = some (0, 1) ∧ 0 ≤ 1 ∧ (1 : ℕ) ≤ 2 - 1 := by
  have heval : time_range_to_frames [10, 10] 0 none = some (0, 1) := by
    simp only [time_range_to_frames, clampStart, clampEnd, gifDuration, startFrameOf,
      endFrameOf, cumTimes, cumTimesAux, findFirstIdx]
    simp
    norm_num
  refine ⟨heval, Nat.zero_le 1, (c10_returned_frame_range_valid [10, 10] 0 none 0 1 heval).2⟩

/-!
## Partial-sum lemmas for the round-trip proof
-/

theorem list_sum_nonneg_int (l : List ℤ) (h : ∀ d ∈ l, 0 ≤ d) : 0 ≤ l.sum := by
  induction l with
  | nil => simp
  | cons a rest ih =>
    simp only [List.sum_cons]
    have ha := h a (List.mem_cons_self a rest)
    have hrest := ih (fun d hd => h d (List.mem_cons_of_mem a hd))
    omega

theorem list_sum_one_le_int (l : List ℤ) (h : ∀ d ∈ l, 1 ≤ d) (hne : l ≠ []) :
    1 ≤ l.sum := by
  cases l with
  | nil => exact absurd rfl hne
  | cons a rest =>
    simp only [List.sum_cons]
    have ha := h a (List.mem_cons_self a rest)
    have hrest := list_sum_nonneg_int rest (fun d hd => by
      have := h d (List.mem_cons_of_mem a hd); omega)
    omega

theorem take_sum_mono (l : List ℤ) (h : ∀ d ∈ l, 0 ≤ d) (a b : ℕ) (hab : a ≤ b) :
    (l.take a).sum ≤ (l.take b).sum := by
  have hsplit : l.take b = l.take a ++ (l.drop a).take (b - a) := by
    rw [← List.take_add]
    congr 1
    omega
  rw [hsplit, List.sum_append]
  have : 0 ≤ ((l.drop a).take (b - a)).sum := by
    refine list_sum_nonneg_int _ (fun d hd => h d ?_)
    exact List.mem_of_mem_drop (List.mem_of_mem_take hd)
  omega

theorem take_sum_strict_mono (l : List ℤ) (h : ∀ d ∈ l, 1 ≤ d) (a b : ℕ)
    (hab : a < b) (hb : b ≤ l.length) :
    (l.take a).sum < (l.take b).sum := by
  have hsplit : l.take b = l.take a ++ (l.drop a).take (b - a) := by
    rw [← List.take_add]
    congr 1
    omega
  rw [hsplit, List.sum_append]
  have hmidne : (l.drop a).take (b - a) ≠ [] := by
    have : ((l.drop a).take (b - a)).length = min (b - a) (l.length - a) := by
      simp [List.length_take, List.length_drop]
    intro hnil
    rw [hnil] at this
    simp only [List.length_nil] at this
    omega
  have : 1 ≤ ((l.drop a).take (b - a)).sum := by
    refine list_sum_one_le_int _ (fun d hd => h d ?_) hmidne
    exact List.mem_of_mem_drop (List.mem_of_mem_take hd)
  omega

theorem take_sum_le_sum (l : List ℤ) (h : ∀ d ∈ l, 0 ≤ d) (a : ℕ) :
    (l.take a).sum ≤ l.sum := by
  by_cases ha : a ≤ l.length
  · have := take_sum_mono l h a l.length ha
    rwa [List.take_length] at this
  · rw [List.take_of_length_le (by omega)]

theorem dropLast_getD (l : List ℚ) : ∀ (j : ℕ), j + 1 < l.length →
    l.dropLast.getD j 0 = l.getD j 0 := by
  induction l with
  | nil => intro j hj; simp at hj
  | cons a rest ih =>
    intro j hj
    cases rest with
    | nil => simp at hj
    | cons b rest2 =>
      cases j with
      | zero => rfl
      | succ m =>
        have hstep : (a :: b :: rest2).dropLast = a :: (b :: rest2).dropLast := rfl
        rw [hstep, List.getD_cons_succ, List.getD_cons_succ]
        exact ih m (by simpa using hj)

/-!
## C1 — splitting exactly on a frame boundary
-/

/-- C1 (the code evaluated at the failing input): on the timeline with delays
`[10, 10, 10]` centiseconds (all ≥ 1), the split time `t = 0.1 s` is exactly the
cumulative end time of frame 0, and `0 < t < 0.3 = totalDuration`; converting the
two adjacent segments `(0, t)` and `(t, 0.3)` gives frame ranges `(0, 1)` and
`(1, 2)`: the earlier segment's end frame is not strictly less than the later
segment's start frame — it equals it — so the boundary frame 1 is duplicated into
both segments, contrary to the claim. -/
theorem c1_boundary_split_duplicates_frame :
    time_range_to_frames [10, 10, 10] 0 (some (1 / 10)) = some (0, 1) ∧
    time_range_to_frames [10, 10, 10] (1 / 10) (some (3 / 10)) = some (1, 2) ∧
    ¬((1 : ℕ) < 1) := by
  refine ⟨?_, ?_, by omega⟩ <;>
  · simp only [time_range_to_frames, clampStart, clampEnd, gifDuration, startFrameOf,
      endFrameOf, cumTimes, cumTimesAux, findFirstIdx]
    simp
    try norm_num

/-!
## C3 — frame → time → frame round trip never shrinks the range
-/

/-- C3: for every timeline with a non-empty delay list whose delays are all ≥ 1 and
every valid frame pair `f0 ≤ f1 < frameCount`, feeding the time range returned by
`frame_range_to_time (f0, f1)` back into `time_range_to_frames` yields a frame
range that contains `[f0, f1]`. -/
theorem c3_roundtrip_never_shrinks (delays : List ℤ) (hne : delays ≠ [])
    (h1 : ∀ d ∈ delays, 1 ≤ d) (f0 f1 : ℕ) (hle : f0 ≤ f1)
    (hlt : f1 < delays.length) :
    ∃ s e sf ef,
      frame_range_to_time delays (f0 : ℤ) (f1 : ℤ) = some (s, e) ∧
      time_range_to_frames delays s (some e) = some (sf, ef) ∧
      sf ≤ f0 ∧ f1 ≤ ef := by
  have h0 : ∀ d ∈ delays, 0 ≤ d := fun d hd => by have := h1 d hd; omega
  have hlen : 0 < delays.length := List.length_pos.mpr hne
  have hS0 : (0 : ℤ) ≤ (delays.take f0).sum :=
    list_sum_nonneg_int _ (fun d hd => h0 d (List.mem_of_mem_take hd))
  -- the two times produced by frame_range_to_time
  have hA : frame_range_to_time delays (f0 : ℤ) (f1 : ℤ) =
      some (((delays.take f0).sum : ℚ) / 100, ((delays.take (f1 + 1)).sum : ℚ) / 100) := by
    have hc1 : ¬(delays = [] ∨ delays.length = 0) := by simp [hne]
    have hc2 : ¬((f0 : ℤ) < 0 ∨ (delays.length : ℤ) ≤ (f1 : ℤ) ∨ (f1 : ℤ) < (f0 : ℤ)) := by
      push_neg
      refine ⟨by positivity, by exact_mod_cast hlt, by exact_mod_cast hle⟩
    rw [frame_range_to_time, if_neg hc1, if_neg hc2]
    simp
  -- clamps act as the identity on these times
  have hclampS : clampStart (((delays.take f0).sum : ℚ) / 100) =
      ((delays.take f0).sum : ℚ) / 100 := by
    rw [clampStart, if_neg]
    exact not_lt.mpr (div_nonneg (by exact_mod_cast hS0) (by norm_num))
  have hclampE : clampEnd delays (some (((delays.take (f1 + 1)).sum : ℚ) / 100)) =
      ((delays.take (f1 + 1)).sum : ℚ) / 100 := by
    simp only [clampEnd]
    rw [if_neg]
    rw [gifDuration, if_neg hne]
    refine not_lt.mpr ?_
    gcongr
    exact_mod_cast take_sum_le_sum delays h0 (f1 + 1)
  -- the start time is strictly below the end time
  have hslt : ((delays.take f0).sum : ℚ) / 100 < ((delays.take (f1 + 1)).sum : ℚ) / 100 := by
    gcongr
    exact take_sum_strict_mono delays h1 f0 (f1 + 1) (by omega) (by omega)
  -- the recovered start frame is at most f0
  have hsf : startFrameOf delays (((delays.take f0).sum : ℚ) / 100) ≤ f0 := by
    have hplt : decide ((((delays.take f0).sum : ℚ) / 100) <
        (cumTimes delays).getD f0 0) = true := by
      rw [cumTimes_getD delays f0 (by omega)]
      simp only [decide_eq_true_eq]
      gcongr
      exact take_sum_strict_mono delays h1 f0 (f0 + 1) (by omega) (by omega)
    obtain ⟨i, hfi, hif0⟩ := findFirstIdx_exists
      (fun c => decide ((((delays.take f0).sum : ℚ) / 100) < c)) (cumTimes delays) f0
      (by rw [cumTimes_length]; omega) hplt
    rw [startFrameOf, hfi]
    simpa using hif0
  -- the recovered end frame is at least f1
  have hef : f1 ≤ endFrameOf delays (((delays.take (f1 + 1)).sum : ℚ) / 100) := by
    have hprevs : ∀ j, j < delays.length → j ≤ f1 + 1 →
        ((0 : ℚ) :: (cumTimes delays).dropLast).getD j 0 ≤
          ((delays.take (f1 + 1)).sum : ℚ) / 100 := by
      intro j hjlen hjle
      cases j with
      | zero =>
        rw [List.getD_cons_zero]
        refine div_nonneg ?_ (by norm_num)
        exact_mod_cast list_sum_nonneg_int _ (fun d hd => h0 d (List.mem_of_mem_take hd))
      | succ m =>
        rw [List.getD_cons_succ,
          dropLast_getD (cumTimes delays) m (by rw [cumTimes_length]; omega),
          cumTimes_getD delays m (by omega)]
        gcongr
        exact_mod_cast take_sum_mono delays h0 (m + 1) (f1 + 1) (by omega)
    unfold endFrameOf
    cases hf : findFirstIdx
        (fun c => decide ((((delays.take (f1 + 1)).sum : ℚ) / 100) < c))
        (0 :: (cumTimes delays).dropLast) with
    | none =>
      show f1 ≤ delays.length - 1
      omega
    | some i =>
      show f1 ≤ i - 1
      obtain ⟨hilen, hip, -⟩ := findFirstIdx_some _ _ _ hf
      simp only [List.length_cons, List.length_dropLast, cumTimes_length] at hilen
      simp only [decide_eq_true_eq] at hip
      by_contra hcon
      have hile : i ≤ f1 + 1 := by omega
      have := hprevs i (by omega) hile
      exact absurd hip (not_lt.mpr this)
  -- assemble: the round trip succeeds and contains the original range
  refine ⟨((delays.take f0).sum : ℚ) / 100, ((delays.take (f1 + 1)).sum : ℚ) / 100,
    startFrameOf delays (((delays.take f0).sum : ℚ) / 100),
    endFrameOf delays (((delays.take (f1 + 1)).sum : ℚ) / 100), hA, ?_, hsf, hef⟩
  rw [time_range_to_frames, hclampS, hclampE, if_neg (by simpa using hne),
    if_neg (not_le.mpr hslt), if_neg (not_lt.mpr (le_trans hsf (le_trans hle hef)))]

/-- Witness for C3 at a concrete input: delays [10, 20, 30], frame range (1, 2). -/
theorem c3_witness :
    ([10, 20, 30] : List ℤ) ≠ [] ∧ (∀ d ∈ ([10, 20, 30] : List ℤ), 1 ≤ d) ∧
    (1 : ℕ) ≤ 2 ∧ 2 < ([10, 20, 30] : List ℤ).length ∧
    ∃ s e sf ef,
      frame_range_to_time [10, 20, 30] 1 2 = some (s, e) ∧
      time_range_to_frames [10, 20, 30] s (some e) = some (sf, ef) ∧
      sf ≤ 1 ∧ 2 ≤ ef := by
  refine ⟨by simp, by decide, by omega, by simp, ?_⟩
  exact c3_roundtrip_never_shrinks [10, 20, 30] (by simp) (by decide) 1 2 (by omega) (by simp)

/-!
## C4 — the delay rescaler contract
-/

theorem pyRound_bounds (q : ℚ) : q - 1/2 ≤ (pyRound q : ℚ) ∧ (pyRound q : ℚ) ≤ q + 1/2 := by
  have hfl : (⌊q⌋ : ℚ) ≤ q := Int.floor_le q
  have hfl2 : q < (⌊q⌋ : ℚ) + 1 := Int.lt_floor_add_one q
  simp only [pyRound]
  split_ifs with h1 h2 h3
  · constructor <;> linarith
  · constructor <;> push_cast <;> linarith
  · constructor <;> linarith
  · constructor <;> push_cast <;> linarith

theorem clamp_pyRound_bound (x : ℚ) (hx : 0 ≤ x) :
    |((max 1 (pyRound x) : ℤ) : ℚ) - x| ≤ 1 := by
  obtain ⟨hlo, hhi⟩ := pyRound_bounds x
  rcases le_or_lt 1 (pyRound x) with h | h
  · rw [max_eq_right h, abs_le]
    constructor <;> linarith
  · have hple : pyRound x ≤ 0 := by omega
    have hpleQ : ((pyRound x : ℤ) : ℚ) ≤ 0 := by exact_mod_cast hple
    rw [max_eq_left (by omega), abs_le]
    have hx2 : x ≤ 1/2 := by linarith
    constructor <;> push_cast <;> linarith

theorem sum_clamped_close (scale : ℚ) (hs : 0 < scale) :
    ∀ (l : List ℤ), (∀ d ∈ l, 0 ≤ d) →
    |((l.map (fun (d : ℤ) => max 1 (pyRound ((d : ℚ) / scale)))).sum : ℚ) -
      (l.sum : ℚ) / scale| ≤ (l.length : ℚ) := by
  intro l
  induction l with
  | nil => intro _; simp
  | cons a rest ih =>
    intro h0
    have ha : (0 : ℚ) ≤ (a : ℚ) / scale :=
      div_nonneg (by exact_mod_cast h0 a (List.mem_cons_self a rest)) hs.le
    have h1 := clamp_pyRound_bound _ ha
    have h2 := ih (fun d hd => h0 d (List.mem_cons_of_mem a hd))
    simp only [List.map_cons, List.sum_cons, List.length_cons]
    rw [Int.cast_add, Int.cast_add, Nat.cast_add, Nat.cast_one]
    set A : ℚ := ((max 1 (pyRound ((a : ℚ) / scale)) : ℤ) : ℚ) with hA
    set S : ℚ := (((rest.map (fun (d : ℤ) => max 1 (pyRound ((d : ℚ) / scale)))).sum : ℤ) : ℚ)
      with hS
    have hsplit : A + S - ((a : ℚ) + (rest.sum : ℚ)) / scale =
        (A - (a : ℚ) / scale) + (S - (rest.sum : ℚ) / scale) := by ring
    rw [hsplit]
    have htri := abs_add (A - (a : ℚ) / scale) (S - (rest.sum : ℚ) / scale)
    have hb : |A - (a : ℚ) / scale| + |S - (rest.sum : ℚ) / scale| ≤ 1 + (rest.length : ℚ) :=
      add_le_add h1 h2
    linarith

/-- The spec's concrete rescaling scenario, evaluated on the embedding. -/
theorem scale_example_10_20_10 :
    scale_delays_proportionally [10, 20, 10] 10 = [8, 15, 8] := by
  simp only [scale_delays_proportionally, pyRound]
  norm_num
  simp
  norm_num [Int.fract]

/-- C4: for every non-empty delay list (of nonnegative probed delays) and every
`targetFps > 0` with non-zero (hence positive) total, `scale_delays_proportionally`
preserves the length, floors every output at 1, and keeps the output mean within
one centisecond (the integer-rounding tolerance, including the floor-at-1 clamp) of
`100/targetFps`; the spec's concrete scenario `[10,20,10] @ 10fps → [8,15,8]` holds;
and the degenerate inputs (empty list, nonpositive fps, zero average) are returned
unchanged. -/
theorem c4_rescaler_contract (delays : List ℤ) (targetFps : ℚ) (hne : delays ≠ [])
    (h0 : ∀ d ∈ delays, 0 ≤ d) (hfps : 0 < targetFps) (hsum : delays.sum ≠ 0) :
    (scale_delays_proportionally delays targetFps).length = delays.length ∧
    (∀ d ∈ scale_delays_proportionally delays targetFps, 1 ≤ d) ∧
    |((scale_delays_proportionally delays targetFps).sum : ℚ) / (delays.length : ℚ) -
      100 / targetFps| ≤ 1 ∧
    scale_delays_proportionally [10, 20, 10] 10 = [8, 15, 8] ∧
    (∀ (ds : List ℤ) (f : ℚ), ds = [] ∨ f ≤ 0 ∨ (ds.sum : ℚ) = 0 →
      scale_delays_proportionally ds f = ds) := by
  have hlen : 0 < delays.length := List.length_pos.mpr hne
  have hlenQ : (0 : ℚ) < (delays.length : ℚ) := by exact_mod_cast hlen
  have hsumpos : (0 : ℤ) < delays.sum := by
    have := list_sum_nonneg_int delays h0
    omega
  have hsumQ : (0 : ℚ) < (delays.sum : ℚ) := by exact_mod_cast hsumpos
  have havg : (0 : ℚ) < (delays.sum : ℚ) / (delays.length : ℚ) := by positivity
  have htarget : (0 : ℚ) < 100 / targetFps := by positivity
  have hscale : (0 : ℚ) < ((delays.sum : ℚ) / (delays.length : ℚ)) / (100 / targetFps) := by
    positivity
  have hsum2 : (delays.sum : ℚ) ≠ 0 := ne_of_gt hsumQ
  have hlen2 : (delays.length : ℚ) ≠ 0 := ne_of_gt hlenQ
  have hfps2 : targetFps ≠ 0 := ne_of_gt hfps
  have hmain : scale_delays_proportionally delays targetFps =
      delays.map (fun (d : ℤ) => max 1 (pyRound ((d : ℚ) /
        (((delays.sum : ℚ) / (delays.length : ℚ)) / (100 / targetFps))))) := by
    rw [scale_delays_proportionally, if_neg (by push_neg; exact ⟨hne, hfps⟩)]
    simp only [if_neg hne, if_neg (ne_of_gt havg)]
  refine ⟨?_, ?_, ?_, ?_, ?_⟩
  · rw [hmain, List.length_map]
  · rw [hmain]
    intro d hd
    obtain ⟨x, -, rfl⟩ := List.mem_map.mp hd
    exact le_max_left 1 _
  · rw [hmain]
    have hbound := sum_clamped_close _ hscale delays h0
    have hkey : (delays.sum : ℚ) /
        (((delays.sum : ℚ) / (delays.length : ℚ)) / (100 / targetFps)) =
        (delays.length : ℚ) * (100 / targetFps) := by
      rw [div_div, div_div_eq_mul_div,
        mul_comm (delays.sum : ℚ) ((delays.length : ℚ) * (100 / targetFps)),
        mul_div_assoc, div_self hsum2, mul_one]
    rw [hkey] at hbound
    have hdiff : ((delays.map (fun (d : ℤ) => max 1 (pyRound ((d : ℚ) /
          (((delays.sum : ℚ) / (delays.length : ℚ)) / (100 / targetFps)))))).sum : ℚ) /
          (delays.length : ℚ) - 100 / targetFps =
        (((delays.map (fun (d : ℤ) => max 1 (pyRound ((d : ℚ) /
          (((delays.sum : ℚ) / (delays.length : ℚ)) / (100 / targetFps)))))).sum : ℚ) -
          (delays.length : ℚ) * (100 / targetFps)) / (delays.length : ℚ) := by
      rw [sub_div, mul_div_cancel_left₀ _ hlen2]
    rw [hdiff, abs_div, abs_of_pos hlenQ]
    exact (div_le_one hlenQ).mpr hbound
  · exact scale_example_10_20_10
  · intro ds f h
    by_cases hc : ds = [] ∨ f ≤ 0
    · rw [scale_delays_proportionally, if_pos hc]
    · rcases h with h | h | h
      · exact absurd (Or.inl h) hc
      · exact absurd (Or.inr h) hc
      · have hds : ds ≠ [] := fun hnil => hc (Or.inl hnil)
        rw [scale_delays_proportionally, if_neg hc]
        simp only [if_neg hds]
        rw [if_pos (by rw [h]; simp)]

/-- Witness for C4 at a concrete input: delay list [10, 20, 10] at 10 fps. -/
theorem c4_witness :
    (scale_delays_proportionally [10, 20, 10] 10).length = 3 ∧
    scale_delays_proportionally [10, 20, 10] 10 = [8, 15, 8] := by
  have h := c4_rescaler_contract [10, 20, 10] 10 (by simp) (by decide)
    (by norm_num) (by decide)
  exact ⟨h.1.trans (by simp), h.2.2.2.1⟩

/-!
## C5 — the delay repair of `get_info`
-/

/-- C5 counterexample: a probed delay list `[0]` with frame count 1 passes through
the repair unchanged — the repaired list contains the delay 0, which is not ≥ 1,
and this zero propagates into the timeline arithmetic (the average delay is 0 and
the fps falls back to 0 only because of a separate guard). -/
theorem c5_counterexample_zero_delay_kept :
    repairDelays [0] 1 = [0] ∧ (0 : ℤ) ∈ repairDelays [0] 1 ∧ ¬(1 ≤ (0 : ℤ)) ∧
    avgDelay (repairDelays [0] 1) = 0 ∧ gifFps (repairDelays [0] 1) = 0 := by
  have hrep : repairDelays [0] 1 = [0] := by
    simp [repairDelays]
  refine ⟨hrep, by rw [hrep]; simp, by omega, ?_, ?_⟩
  · rw [hrep]
    simp [avgDelay]
  · rw [hrep]
    simp [gifFps, avgDelay]

/-- C5 amended: the repaired delay list always has exactly `frameCount` entries
(padded with the last known delay, default 10 when no delays were probed, or
truncated when too long); every repaired entry is either a probed delay or the
default 10, so the repaired delays are all ≥ 1 whenever all probed delays are —
but probed zero delays are kept, not clamped. -/
theorem c5_repair_length_and_provenance (delays : List ℤ) (frameCount : ℕ) :
    (repairDelays delays frameCount).length = frameCount ∧
    (∀ d ∈ repairDelays delays frameCount, d ∈ delays ∨ d = 10) ∧
    ((∀ d ∈ delays, 1 ≤ d) → ∀ d ∈ repairDelays delays frameCount, 1 ≤ d) := by
  have hlen : (repairDelays delays frameCount).length = frameCount := by
    unfold repairDelays
    split_ifs with h1 h2
    · simp only [List.length_append, List.length_replicate]
      omega
    · simp only [List.length_take]
      omega
    · push_neg at h1
      omega
  have hmem : ∀ d ∈ repairDelays delays frameCount, d ∈ delays ∨ d = 10 := by
    unfold repairDelays
    split_ifs with h1 h2
    · cases hlast : delays.getLast? with
      | some x =>
        intro d hd
        rcases List.mem_append.mp hd with hm | hm
        · exact Or.inl hm
        · left
          have hx : d = x := by simpa using List.eq_of_mem_replicate hm
          obtain ⟨hne2, hxlast⟩ := List.mem_getLast?_eq_getLast (l := delays) (x := x) hlast
          rw [hx, hxlast]
          exact List.getLast_mem hne2
      | none =>
        intro d hd
        rcases List.mem_append.mp hd with hm | hm
        · exact Or.inl hm
        · right
          simpa using List.eq_of_mem_replicate hm
    · intro d hd
      exact Or.inl (List.mem_of_mem_take hd)
    · intro d hd
      exact Or.inl hd
  refine ⟨hlen, hmem, fun hall d hd => ?_⟩
  rcases hmem d hd with h | h
  · exact hall d h
  · rw [h]
    norm_num

/-- Witness for C5 at a concrete input: three probed delays, frame count five. -/
theorem c5_witness :
    (repairDelays [2, 3, 4] 5).length = 5 ∧
    (∀ d ∈ repairDelays [2, 3, 4] 5, d ∈ ([2, 3, 4] : List ℤ) ∨ d = 10) ∧
    (∀ d ∈ repairDelays [2, 3, 4] 5, 1 ≤ d) := by
  obtain ⟨h1, h2, h3⟩ := c5_repair_length_and_provenance [2, 3, 4] 5
  exact ⟨h1, h2, h3 (by decide)⟩

/-!
## C8 — normalize mode assigns int(100/fps), not round(100/fps)
-/

/-- C8 counterexample: at targetFps = 6, both `split_gif`/`trim_gif` and
`optimize_gif` in normalize mode assign the uniform delay `int(100/6) = 16`
centiseconds, whereas `round(100/6) = 17`: the uniform value is the truncation,
not the rounding, of `100/targetFps`. -/
theorem c8_counterexample_truncation_not_rounding :
    segmentFpsDelaySetting [10, 10] 0 1 (some 6) "normalize" = .uniform 16 ∧
    optimizeFpsDelaySetting [10, 10] (some 6) "normalize" = .uniform 16 ∧
    pyRound (100 / 6) = 17 ∧ (16 : ℤ) ≠ 17 := by
  have hmode : ¬(("normalize" : String) = "preserve") := by decide
  have hval : pyInt (100 / 6) = 16 := by norm_num [pyInt]
  refine ⟨?_, ?_, by norm_num [pyRound, Int.fract], by omega⟩
  · simp only [segmentFpsDelaySetting]
    rw [if_neg (by norm_num : ¬((6 : ℚ) = 0)), if_neg hmode, hval]
  · simp only [optimizeFpsDelaySetting]
    rw [if_neg (by norm_num : ¬((6 : ℚ) = 0)), if_neg hmode, hval]

/-- C8 amended: with fps set (non-zero) and fps_mode "normalize", every output
frame of a segment operation or of `optimize_gif` is assigned the same delay, and
that uniform delay equals `int(100/targetFps)` centiseconds (truncation toward
zero), not `round(100/targetFps)`. -/
theorem c8_normalize_uniform_truncated_delay (delays : List ℤ) (sf ef : ℕ) (f : ℚ)
    (hf : ¬(f = 0)) :
    segmentFpsDelaySetting delays sf ef (some f) "normalize" =
      .uniform (pyInt (100 / f)) ∧
    optimizeFpsDelaySetting delays (some f) "normalize" = .uniform (pyInt (100 / f)) ∧
    ∀ seg : List ℤ,
      effectiveDelays (segmentFpsDelaySetting delays sf ef (some f) "normalize") seg =
        List.replicate seg.length (pyInt (100 / f)) := by
  have hmode : ¬(("normalize" : String) = "preserve") := by decide
  have h1 : segmentFpsDelaySetting delays sf ef (some f) "normalize" =
      .uniform (pyInt (100 / f)) := by
    simp only [segmentFpsDelaySetting]
    rw [if_neg hf, if_neg hmode]
  have h2 : optimizeFpsDelaySetting delays (some f) "normalize" =
      .uniform (pyInt (100 / f)) := by
    simp only [optimizeFpsDelaySetting]
    rw [if_neg hf, if_neg hmode]
  refine ⟨h1, h2, fun seg => ?_⟩
  rw [h1]
  rfl

/-- Witness for C8's amended theorem at fps = 5: uniform delay int(100/5) = 20. -/
theorem c8_witness :
    segmentFpsDelaySetting [10, 10] 0 1 (some 5) "normalize" = .uniform (pyInt (100 / 5)) ∧
    pyInt (100 / 5) = 20 := by
  refine ⟨(c8_normalize_uniform_truncated_delay [10, 10] 0 1 5 (by norm_num)).1, ?_⟩
  norm_num [pyInt]

/-!
## C2 — preserve mode collapses the rescaled delays to one uniform value
-/

theorem scale_delays_ne_nil (ds : List ℤ) (f : ℚ) (h : ds ≠ []) :
    scale_delays_proportionally ds f ≠ [] := by
  simp only [scale_delays_proportionally]
  split_ifs
  · exact h
  · exact h
  · simp [h]

/-- C2 counterexample: for the segment with delays `[10, 20, 10]` processed at
fps = 10 in preserve mode, the rescaled per-frame delays are `[8, 15, 8]`, but the
pipeline command carries the single uniform value `int(mean([8,15,8])) = 10`
(`-set delay` assigns the same delay to every frame), so the output frame delays
are `[10, 10, 10]`, not the per-frame rescaled delays: relative pacing (frame 1
twice as long as frame 0) is lost. -/
theorem c2_counterexample_uniform_not_per_frame :
    segmentFpsDelaySetting [10, 20, 10] 0 2 (some 10) "preserve" = .uniform 10 ∧
    effectiveDelays (segmentFpsDelaySetting [10, 20, 10] 0 2 (some 10) "preserve")
      (pySlice [10, 20, 10] 0 3) = [10, 10, 10] ∧
    specPreserveDelays (pySlice [10, 20, 10] 0 3) 10 = [8, 15, 8] ∧
    ([10, 10, 10] : List ℤ) ≠ [8, 15, 8] := by
  have hslice : pySlice [10, 20, 10] 0 (2 + 1) = [10, 20, 10] := by decide
  have hscaled : scale_delays_proportionally [10, 20, 10] 10 = [8, 15, 8] :=
    scale_example_10_20_10
  have hsetting : segmentFpsDelaySetting [10, 20, 10] 0 2 (some 10) "preserve" =
      .uniform 10 := by
    simp only [segmentFpsDelaySetting]
    rw [if_neg (by norm_num : ¬((10 : ℚ) = 0)), if_pos trivial,
      if_neg (by simp : ¬(([10, 20, 10] : List ℤ) = [])), hslice, hscaled,
      if_neg (by simp : ¬(([10, 20, 10] : List ℤ) = [])),
      if_neg (by simp : ¬(([8, 15, 8] : List ℤ) = []))]
    norm_num [pyInt]
  refine ⟨hsetting, ?_, ?_, by simp⟩
  · rw [hsetting]
    decide
  · rw [specPreserveDelays]
    have h3 : pySlice [10, 20, 10] 0 3 = [10, 20, 10] := by decide
    rw [h3, hscaled]

/-- C2 amended: for every segment processed with fps set (non-zero) and fps_mode
"preserve" whose delay slice is non-empty, the pipeline command carries one
uniform delay equal to `int(mean(scale_delays_proportionally(segmentDelays,
fps)))`, and every output frame of the segment receives that same single value —
per-frame rescaled delays are computed but then collapsed to their truncated
mean. -/
theorem c2_preserve_uniform_mean_delay (delays : List ℤ) (sf ef : ℕ) (f : ℚ)
    (hf : ¬(f = 0)) (hseg : pySlice delays sf (ef + 1) ≠ []) :
    segmentFpsDelaySetting delays sf ef (some f) "preserve" =
      .uniform (pyInt
        (((scale_delays_proportionally (pySlice delays sf (ef + 1)) f).sum : ℚ) /
         ((scale_delays_proportionally (pySlice delays sf (ef + 1)) f).length : ℚ))) ∧
    ∀ d ∈ effectiveDelays (segmentFpsDelaySetting delays sf ef (some f) "preserve")
        (pySlice delays sf (ef + 1)),
      d = pyInt
        (((scale_delays_proportionally (pySlice delays sf (ef + 1)) f).sum : ℚ) /
         ((scale_delays_proportionally (pySlice delays sf (ef + 1)) f).length : ℚ)) := by
  have hdne : delays ≠ [] := by
    intro hnil
    apply hseg
    rw [hnil]
    simp [pySlice]
  have h1 : segmentFpsDelaySetting delays sf ef (some f) "preserve" =
      .uniform (pyInt
        (((scale_delays_proportionally (pySlice delays sf (ef + 1)) f).sum : ℚ) /
         ((scale_delays_proportionally (pySlice delays sf (ef + 1)) f).length : ℚ))) := by
    simp only [segmentFpsDelaySetting]
    rw [if_neg hf, if_pos trivial, if_neg hdne, if_neg hseg,
      if_neg (scale_delays_ne_nil _ f hseg)]
  refine ⟨h1, fun d hd => ?_⟩
  rw [h1] at hd
  exact List.eq_of_mem_replicate hd

/-- Witness for C2's amended theorem at the spec's scenario segment. -/
theorem c2_witness :
    segmentFpsDelaySetting [10, 20, 10] 0 2 (some 10) "preserve" =
      .uniform (pyInt
        (((scale_delays_proportionally (pySlice [10, 20, 10] 0 3) 10).sum : ℚ) /
         ((scale_delays_proportionally (pySlice [10, 20, 10] 0 3) 10).length : ℚ))) :=
  (c2_preserve_uniform_mean_delay [10, 20, 10] 0 2 10 (by norm_num) (by decide)).1

/-!
## C7 — empty input versus invalid input in `parse_split_trim_input`
-/

/-- C7 counterexample: a whitespace-only input and a non-empty but invalid
hyphenated input (`"f:9-5"` on a 5-frame asset: zero ranges parse, since the end
frame 5 is out of range) both yield `none` — the two outcomes are identical at the
function's interface, so they are not distinguishable there. -/
theorem c7_counterexample_same_outcome :
    parse_split_trim_input "   ".toList 10 5 [10, 10, 10, 10, 10] = none ∧
    parse_split_trim_input "f:9-5".toList 10 5 [10, 10, 10, 10, 10] = none ∧
    parse_split_trim_input "   ".toList 10 5 [10, 10, 10, 10, 10] =
      parse_split_trim_input "f:9-5".toList 10 5 [10, 10, 10, 10, 10] := by
  refine ⟨by decide, by decide, by decide⟩

/-- C7 amended: every empty or whitespace-only input yields `none` ("no
operation"), which is the same value the function returns for a non-empty invalid
input; the empty/invalid distinction is made by callers (which test input
emptiness before calling), not by the return value. -/
theorem c7_whitespace_input_yields_none (s : PyStr) (maxDuration : ℚ)
    (maxFrames : ℤ) (delays : List ℤ) (h : pyStrip s = []) :
    parse_split_trim_input s maxDuration maxFrames delays = none := by
  rw [parse_split_trim_input, if_pos (Or.inr h)]

/-- Witness for C7's amended theorem on a concrete whitespace-only input. -/
theorem c7_witness :
    pyStrip " \t ".toList = [] ∧
    parse_split_trim_input " \t ".toList 10 5 [10, 10, 10, 10, 10] = none :=
  ⟨by decide, c7_whitespace_input_yields_none " \t ".toList 10 5 [10, 10, 10, 10, 10]
    (by decide)⟩

/-!
## C9 — optimize with no parameters
-/

/-- C9 counterexample: on an existing GIF, non-interactive, output not pre-existing,
ImageMagick installed and no width/fps/colors given, the CLI trace is
`[runIdentify, exitError]`: the invocation is indeed rejected, but an external
process (the ImageMagick `identify` metadata probe of `get_info`, cli.py line 144)
runs before the rejection, so the rejection is not "before any external process
runs". -/
theorem c9_counterexample_probe_runs_first :
    optimizeGifCliTrace ⟨true, true, false, false, true, none, none, none⟩ =
      [.runIdentify, .exitError] := by
  decide

/-- C9 amended: invoking optimize on a GIF with none of width, fps, colors provided
never reaches the `optimize_gif` pipeline — it is rejected by the
at-least-one-parameter validation (or exits even earlier on the output-exists
check), so it never silently succeeds as a no-op copy; however metadata probes
(ImageMagick `identify`) may run before the rejection. -/
theorem c9_no_params_never_optimizes (cfg : OptimizeCliConfig)
    (hw : cfg.width = none) (hf : cfg.fps = none) (hc : cfg.colors = none) :
    CliEvent.runOptimize ∉ optimizeGifCliTrace cfg ∧
    ((cfg.outputExists = false ∨ cfg.overwrite = true) →
      (optimizeGifCliTrace cfg).getLast? = some CliEvent.exitError) := by
  obtain ⟨mag, ni, oe, ow, co, w, f, c⟩ := cfg
  simp only at hw hf hc
  subst hw hf hc
  cases mag <;> cases ni <;> cases oe <;> cases ow <;> cases co <;> decide

/-- Witness for C9's amended theorem at a concrete configuration. -/
theorem c9_witness :
    CliEvent.runOptimize ∉
      optimizeGifCliTrace ⟨true, true, false, false, true, none, none, none⟩ ∧
    ((false = false ∨ false = true) →
      (optimizeGifCliTrace ⟨true, true, false, false, true, none, none, none⟩).getLast? =
        some CliEvent.exitError) :=
  c9_no_params_never_optimizes ⟨true, true, false, false, true, none, none, none⟩
    rfl rfl rfl


/-!
## C6 — per-segment failures are contained
-/

theorem two_le_length_of_mem_ne {α : Type} (l : List α) (a b : α) (ha : a ∈ l)
    (hb : b ∈ l) (hab : a ≠ b) : 2 ≤ l.length := by
  cases l with
  | nil => simp at ha
  | cons x rest =>
    cases rest with
    | nil =>
      simp at ha hb
      exact absurd (ha.trans hb.symm) hab
    | cons y rest2 =>
      simp only [List.length_cons]
      omega

theorem temps_cleanup (c e : String) :
    (([c, e].filter (fun t => t ≠ c)).filter (fun t => t ≠ e)) = [] := by
  by_cases h : e = c <;> simp [h]

/-- Characterization of the `split_gif` segment loop: temp files never leak, the
committed outputs are exactly the successful segments' paths in order, and each
skipped or failed segment leaves exactly its warning. -/
theorem split_fold_spec (delays : List ℤ) (validPoints : List ℚ) (ok : ℕ → Bool)
    (stem ext : String) (L : List ℕ) :
    ∀ st : SplitState, st.liveTemps = [] →
    ((L.foldl (splitSegStep delays validPoints ok stem ext) st).liveTemps = [] ∧
     (L.foldl (splitSegStep delays validPoints ok stem ext) st).outputs =
       st.outputs ++ (L.filter (fun i =>
         (time_range_to_frames delays (validPoints.getD i 0)
           (some (validPoints.getD (i + 1) 0))).isSome && ok i)).map
         (segOutputName stem ext) ∧
     (L.foldl (splitSegStep delays validPoints ok stem ext) st).events =
       st.events ++ L.filterMap (fun i =>
         match time_range_to_frames delays (validPoints.getD i 0)
             (some (validPoints.getD (i + 1) 0)) with
         | none => some (SplitEvent.warnNoRange i)
         | some _ => if ok i then none else some (SplitEvent.warnFailed i))) := by
  induction L with
  | nil =>
    intro st h
    exact ⟨h, by simp, by simp⟩
  | cons i L ih =>
    intro st h
    cases hfr : time_range_to_frames delays (validPoints.getD i 0)
        (some (validPoints.getD (i + 1) 0)) with
    | none =>
      have hfr2 := hfr
      simp only [List.getD_eq_getElem?_getD] at hfr2
      have hstep : splitSegStep delays validPoints ok stem ext st i =
          ⟨st.outputs, st.events ++ [SplitEvent.warnNoRange i], st.liveTemps⟩ := by
        simp only [splitSegStep]
        rw [hfr]
      obtain ⟨ih1, ih2, ih3⟩ := ih ⟨st.outputs, st.events ++ [SplitEvent.warnNoRange i],
        st.liveTemps⟩ h
      refine ⟨?_, ?_, ?_⟩
      · simpa [hstep] using ih1
      · rw [List.foldl_cons, hstep, ih2]
        simp [List.filter_cons, hfr, hfr2]
      · rw [List.foldl_cons, hstep, ih3]
        simp [List.filterMap_cons, hfr, hfr2]
    | some fr =>
      by_cases hok : ok i = true
      · have hfr2 := hfr
        simp only [List.getD_eq_getElem?_getD] at hfr2
        have hstep : splitSegStep delays validPoints ok stem ext st i =
            ⟨st.outputs ++ [segOutputName stem ext i], st.events, []⟩ := by
          simp only [splitSegStep]
          rw [hfr, if_pos hok, h]
          simp [temps_cleanup]
        obtain ⟨ih1, ih2, ih3⟩ := ih ⟨st.outputs ++ [segOutputName stem ext i],
          st.events, []⟩ rfl
        refine ⟨?_, ?_, ?_⟩
        · simpa [hstep] using ih1
        · rw [List.foldl_cons, hstep, ih2]
          simp [List.filter_cons, hfr, hfr2, hok]
        · rw [List.foldl_cons, hstep, ih3]
          simp [List.filterMap_cons, hfr, hfr2, hok]
      · have hfr2 := hfr
        simp only [List.getD_eq_getElem?_getD] at hfr2
        have hstep : splitSegStep delays validPoints ok stem ext st i =
            ⟨st.outputs, st.events ++ [SplitEvent.warnFailed i], []⟩ := by
          simp only [splitSegStep]
          rw [hfr, if_neg hok, h]
          simp [temps_cleanup]
        obtain ⟨ih1, ih2, ih3⟩ := ih ⟨st.outputs,
          st.events ++ [SplitEvent.warnFailed i], []⟩ rfl
        refine ⟨?_, ?_, ?_⟩
        · simpa [hstep] using ih1
        · rw [List.foldl_cons, hstep, ih2]
          simp [List.filter_cons, hfr, hfr2, hok]
        · rw [List.foldl_cons, hstep, ih3]
          simp [List.filterMap_cons, hfr, hfr2, hok]

/-- C6: for every split run (non-empty requested points, at least two surviving
boundaries) and every behaviour of the external pipeline (the oracle `ok` says
which segment pipelines succeed; a failing pipeline raises and is caught), the
loop never lets a failure escape: no temp file is left behind, the returned list
is exactly the output paths of the successfully committed segments in order, and
every failed segment leaves a warning naming it and contributes no output. -/
theorem c6_split_failures_contained (delays : List ℤ) (splitPoints : List ℚ)
    (ok : ℕ → Bool) (stem ext : String) (hne : splitPoints ≠ [])
    (hpts : 2 ≤ (computeValidPoints splitPoints (gifDuration delays)).length) :
    (split_gif_run delays splitPoints ok stem ext).liveTemps = [] ∧
    (split_gif_run delays splitPoints ok stem ext).outputs =
      ((List.range ((computeValidPoints splitPoints (gifDuration delays)).length - 1)).filter
        (fun i => (time_range_to_frames delays
            ((computeValidPoints splitPoints (gifDuration delays)).getD i 0)
            (some ((computeValidPoints splitPoints (gifDuration delays)).getD (i + 1) 0))).isSome
          && ok i)).map (segOutputName stem ext) ∧
    (∀ i, i < (computeValidPoints splitPoints (gifDuration delays)).length - 1 →
      (time_range_to_frames delays
        ((computeValidPoints splitPoints (gifDuration delays)).getD i 0)
        (some ((computeValidPoints splitPoints (gifDuration delays)).getD (i + 1) 0))).isSome →
      ok i = false →
      SplitEvent.warnFailed i ∈ (split_gif_run delays splitPoints ok stem ext).events ∧
      i ∉ (List.range ((computeValidPoints splitPoints (gifDuration delays)).length - 1)).filter
        (fun i => (time_range_to_frames delays
            ((computeValidPoints splitPoints (gifDuration delays)).getD i 0)
            (some ((computeValidPoints splitPoints (gifDuration delays)).getD (i + 1) 0))).isSome
          && ok i)) := by
  have hrun : split_gif_run delays splitPoints ok stem ext =
      (List.range ((computeValidPoints splitPoints (gifDuration delays)).length - 1)).foldl
        (splitSegStep delays (computeValidPoints splitPoints (gifDuration delays)) ok stem ext)
        ⟨[], [], []⟩ := by
    rw [split_gif_run, if_neg hne]
    simp only [if_neg (by omega : ¬(computeValidPoints splitPoints (gifDuration delays)).length < 2)]
  obtain ⟨h1, h2, h3⟩ := split_fold_spec delays
    (computeValidPoints splitPoints (gifDuration delays)) ok stem ext
    (List.range ((computeValidPoints splitPoints (gifDuration delays)).length - 1))
    ⟨[], [], []⟩ rfl
  refine ⟨by rw [hrun]; exact h1, by rw [hrun, h2]; simp, fun i hi hsome hok => ?_⟩
  constructor
  · rw [hrun, h3]
    simp only [List.nil_append]
    refine List.mem_filterMap.mpr ⟨i, List.mem_range.mpr hi, ?_⟩
    obtain ⟨fr, hfr⟩ := Option.isSome_iff_exists.mp hsome
    rw [hfr]
    simp [hok]
  · intro hmem
    have := List.of_mem_filter hmem
    rw [hok] at this
    simp at this

/-- Witness for C6 at a concrete input: one split point, every pipeline failing. -/
theorem c6_witness :
    (split_gif_run [10, 10, 10] [1/10] (fun _ => false) "clip" ".gif").liveTemps = [] := by
  have hlen : 2 ≤ (computeValidPoints [1/10] (gifDuration [10, 10, 10])).length := by
    have hmem0 : (0 : ℚ) ∈ computeValidPoints [1/10] (gifDuration [10, 10, 10]) := by
      rw [computeValidPoints]
      refine ((List.perm_insertionSort _ _).mem_iff).mpr ?_
      rw [List.mem_dedup]
      exact List.mem_cons_self _ _
    have hmemD : gifDuration [10, 10, 10] ∈
        computeValidPoints [1/10] (gifDuration [10, 10, 10]) := by
      rw [computeValidPoints]
      refine ((List.perm_insertionSort _ _).mem_iff).mpr ?_
      rw [List.mem_dedup]
      exact List.mem_cons_of_mem _ (List.mem_append_right _ (List.mem_singleton.mpr rfl))
    have hne0 : (0 : ℚ) ≠ gifDuration [10, 10, 10] := by
      rw [gifDuration, if_neg (by simp : ¬(([10, 10, 10] : List ℤ) = []))]
      norm_num
    exact two_le_length_of_mem_ne _ 0 (gifDuration [10, 10, 10]) hmem0 hmemD hne0
  exact (c6_split_failures_contained [10, 10, 10] [1/10] (fun _ => false) "clip" ".gif"
    (by simp) hlen).1

end AssetGuy
